import Mathlib

/-!
Verification development for the poe2 bundle extractor.

The Rust sources under src/bundle are shallowly embedded here:
byte slices become List Nat (each element one byte, 0..255), the
mutable cursor offset becomes an explicit Nat, u32/i32/u64/i64 values
are carried as their raw unsigned bit patterns (Nat), with signed
conversions such as Rust's i32-to-usize cast made explicit where the
source performs them.  A Rust panic (slice index out of range, unwrap
of None/Err, assert failure) is modelled as Option.none or as a
dedicated error constructor: the source functions have no other error
channel at those points.
-/

namespace Poe2

/-- Little-endian value of a byte list (first element is the least
significant byte).  Mirrors u32::from_le_bytes / u64::from_le_bytes
composed with the slicing done at each call site. -/
def leNat : List Nat → Nat
  | [] => 0
  | b :: rest => b + 256 * leNat rest

/-- The four little-endian bytes of a u32 value. -/
def le4 (v : Nat) : List Nat :=
  [v % 256, v / 256 % 256, v / 65536 % 256, v / 16777216 % 256]

/-- Rust's `i32 as usize` cast on the raw 32-bit pattern: values with the
sign bit set are sign-extended to 64 bits. -/
def i32AsUsize (raw : Nat) : Nat :=
  if raw < 2 ^ 31 then raw else 2 ^ 64 - 2 ^ 32 + raw

/-- Models `read_u32` (src/bundle/src/util.rs:13): reads 4 little-endian
bytes at `off` and advances the offset by 4.  The Rust function indexes
`slice[off..off+4]` and panics when fewer than 4 bytes remain; the panic
is `none` (the function returns a bare u32, there is no error channel).
`read_i32` (util.rs:18) reads the same 4 raw bytes, so it shares this
model; signedness only matters at use sites. -/
def read_u32 (slice : List Nat) (off : Nat) : Option (Nat × Nat) :=
  if off + 4 ≤ slice.length then some (leNat ((slice.drop off).take 4), off + 4) else none

/-- Models `read_u64` / `read_i64` (src/bundle/src/util.rs:24,29): reads 8
little-endian bytes, advancing by 8; panic on a short slice is `none`. -/
def read_u64 (slice : List Nat) (off : Nat) : Option (Nat × Nat) :=
  if off + 8 ≤ slice.length then some (leNat ((slice.drop off).take 8), off + 8) else none

/-- Models `read_bytes` (src/bundle/src/util.rs:8): returns the `n` bytes
at `off` and advances by `n`; the Rust slice indexing panics when fewer
than `n` bytes remain, modelled as `none`. -/
def read_bytes (slice : List Nat) (n : Nat) (off : Nat) : Option (List Nat × Nat) :=
  if off + n ≤ slice.length then some ((slice.drop off).take n, off + n) else none

/-- Is `b` a UTF-8 continuation byte (0x80..0xBF)? -/
def utf8Cont (b : Nat) : Bool :=
  128 ≤ b && b ≤ 191

/-- UTF-8 validity of a byte list, following the byte-range table that
Rust's `str::from_utf8` checks (shortest-form encodings only, surrogates
rejected). -/
def utf8Valid : List Nat → Bool
  | [] => true
  | b :: rest =>
    if b < 128 then utf8Valid rest
    else if 194 ≤ b && b ≤ 223 then
      match rest with
      | c1 :: r => utf8Cont c1 && utf8Valid r
      | [] => false
    else if b = 224 then
      match rest with
      | c1 :: c2 :: r => (160 ≤ c1 && c1 ≤ 191) && utf8Cont c2 && utf8Valid r
      | _ => false
    else if 225 ≤ b && b ≤ 236 then
      match rest with
      | c1 :: c2 :: r => utf8Cont c1 && utf8Cont c2 && utf8Valid r
      | _ => false
    else if b = 237 then
      match rest with
      | c1 :: c2 :: r => (128 ≤ c1 && c1 ≤ 159) && utf8Cont c2 && utf8Valid r
      | _ => false
    else if 238 ≤ b && b ≤ 239 then
      match rest with
      | c1 :: c2 :: r => utf8Cont c1 && utf8Cont c2 && utf8Valid r
      | _ => false
    else if b = 240 then
      match rest with
      | c1 :: c2 :: c3 :: r => (144 ≤ c1 && c1 ≤ 191) && utf8Cont c2 && utf8Cont c3 && utf8Valid r
      | _ => false
    else if 241 ≤ b && b ≤ 243 then
      match rest with
      | c1 :: c2 :: c3 :: r => utf8Cont c1 && utf8Cont c2 && utf8Cont c3 && utf8Valid r
      | _ => false
    else if b = 244 then
      match rest with
      | c1 :: c2 :: c3 :: r => (128 ≤ c1 && c1 ≤ 143) && utf8Cont c2 && utf8Cont c3 && utf8Valid r
      | _ => false
    else false

/-- Outcome of `find_cstring` (src/bundle/src/util.rs:34).  The Rust
function slices `&slice[off..]` (panics when `off > len`), searches for a
null byte (returning `None` when there is none), and converts the bytes
before the null to a String, whose internal `.unwrap()` panics on invalid
UTF-8.  Callers in this repo `.unwrap()` the `Option`, so `noNull` also
ends in a panic at the call site. -/
inductive CStrOut where
  | panicOob
  | panicUtf8
  | noNull
  | found (bytes : List Nat) (offAfter : Nat)
  deriving DecidableEq, Repr

/-- Position of the first zero byte, as `iter().position(|&b| b == 0)`. -/
def findNull : List Nat → Option Nat
  | [] => none
  | b :: rest => if b = 0 then some 0 else (findNull rest).map (fun i => i + 1)

/-- Models `find_cstring` (src/bundle/src/util.rs:34); the reconstructed
string is kept as its UTF-8 byte list. -/
def find_cstring (slice : List Nat) (off : Nat) : CStrOut :=
  if off ≤ slice.length then
    match findNull (slice.drop off) with
    | none => .noNull
    | some pos =>
      if utf8Valid ((slice.drop off).take pos) then
        .found ((slice.drop off).take pos) (off + pos + 1)
      else .panicUtf8
  else .panicOob

/-! ## Bundle (src/bundle/src/lib.rs) -/

/-- In-memory bundle, mirroring `struct Bundle` plus the embedded
`OodleLZ_SeekTable` scalar fields (src/bundle/src/lib.rs:17-27,219-228).
`compressor` and `seekChunksIndependent` hold the raw u32 bit patterns of
the i32 fields; `totalRawLen`, `totalCompLen` and the two structural
pointer-valued fields hold the raw u64 bit patterns of the i64 fields;
`numSeekChunks` and `seekChunkLen` hold raw u32 patterns of i32 fields. -/
structure Bundle where
  uncompressed_size : Nat
  compressed_size : Nat
  seek_table_size : Nat
  compressor : Nat
  seekChunksIndependent : Nat
  totalRawLen : Nat
  totalCompLen : Nat
  numSeekChunks : Nat
  seekChunkLen : Nat
  ptrCompLens : Nat
  ptrRawCrcs : Nat
  seek_chunk_comp_lens : List Nat
  raw_crcs : Option (List Nat)
  chunks : List (List Nat)
  deriving DecidableEq, Repr

/-- Bytes reinterpreted as little-endian u32 values, 4 at a time, the
remainder dropped, as `chunks_exact(4)` + `u32::from_le_bytes` does
(src/bundle/src/lib.rs:236-239). -/
def bytesToU32s : List Nat → List Nat
  | a :: b :: c :: d :: rest => leNat [a, b, c, d] :: bytesToU32s rest
  | _ => []

/-- The chunk-consuming loop of bundle parsing (src/bundle/src/lib.rs:242-249):
for each declared compressed length, slice that many bytes off the input,
advancing the offset; the Rust range indexing panics (here `none`) when a
declared length reaches past the end of the input. -/
def readChunks (value : List Nat) : List Nat → Nat → Option (List (List Nat) × Nat)
  | [], off => some ([], off)
  | sz :: rest, off =>
    if off + sz ≤ value.length then
      match readChunks value rest (off + sz) with
      | some (cs, off') => some ((value.drop off).take sz :: cs, off')
      | none => none
    else none

/-- Models `TryFrom<&[u8]> for Bundle<T>` (src/bundle/src/lib.rs:206-281).
The Rust function returns `Result` but has no `Err` path: every length
violation is a panic inside the read helpers or the slice indexing
(`none` here), and no §3 invariant is checked before `Ok` is returned. -/
def bundleTryFrom (value : List Nat) : Option Bundle := do
  let (uncompressed_size, o1) ← read_u32 value 0
  let (compressed_size, o2) ← read_u32 value o1
  let (seek_table_size, o3) ← read_u32 value o2
  let (compressor, o4) ← read_u32 value o3
  let (indep, o5) ← read_u32 value o4
  let (totalRawLen, o6) ← read_u64 value o5
  let (totalCompLen, o7) ← read_u64 value o6
  let (numSeekChunks, o8) ← read_u32 value o7
  let (seekChunkLen, o9) ← read_u32 value o8
  let (ptr1, o10) ← read_u64 value o9
  let (ptr2, o11) ← read_u64 value o10
  let (lensBytes, o12) ← read_bytes value (i32AsUsize numSeekChunks * 4) o11
  let lens := bytesToU32s lensBytes
  let (chunks, o13) ← readChunks value lens o12
  if o13 ≠ value.length then
    let (crcBytes, _o14) ← read_bytes value (i32AsUsize numSeekChunks * 4) o13
    pure ⟨uncompressed_size, compressed_size, seek_table_size, compressor, indep,
      totalRawLen, totalCompLen, numSeekChunks, seekChunkLen, ptr1, ptr2,
      lens, some (bytesToU32s crcBytes), chunks⟩
  else
    pure ⟨uncompressed_size, compressed_size, seek_table_size, compressor, indep,
      totalRawLen, totalCompLen, numSeekChunks, seekChunkLen, ptr1, ptr2,
      lens, none, chunks⟩

/-- Models `From<Bundle<T>> for Vec<u8>` (src/bundle/src/lib.rs:283-287).
The body of that impl is `value.into()`, and with target type `Vec<u8>`
that call resolves to the very same impl, so the function recurses into
itself unconditionally and never builds a byte vector.  The Nat argument
counts recursive calls; `none` is reached for every depth. -/
def bundleIntoVec : Nat → Bundle → Option (List Nat)
  | 0, _ => none
  | fuel + 1, b => bundleIntoVec fuel b

/-- Ceiling division on Nat, for the §3 chunk-count invariant. -/
def natCeilDiv (a b : Nat) : Nat := (a + b - 1) / b

/-- The CRC component of the §3 invariants: CRCs, when present, are one
per seek chunk. -/
def Bundle.crcsOk (b : Bundle) : Bool :=
  match b.raw_crcs with
  | some crcs => crcs.length == b.numSeekChunks
  | none => true

/-- The §3 bundle invariants ("valid bundle"), as a decidable predicate:
chunk bytes sum to `compressed_size` which equals `totalCompLen`,
`totalRawLen` equals `uncompressed_size`, the chunk count fields agree,
the chunk count is the ceiling of the raw size over the chunk length, and
CRCs (when present) are one per chunk.  Validity also requires the two
i32 count/length fields to be positive i32 values (their raw patterns
below 2^31), without which the format is meaningless. -/
def Bundle.Valid (b : Bundle) : Prop :=
  (b.chunks.map List.length).sum = b.compressed_size
  ∧ b.compressed_size = b.totalCompLen
  ∧ b.totalRawLen = b.uncompressed_size
  ∧ b.numSeekChunks = b.chunks.length
  ∧ b.numSeekChunks = b.seek_chunk_comp_lens.length
  ∧ natCeilDiv b.uncompressed_size b.seekChunkLen = b.numSeekChunks
  ∧ b.crcsOk = true
  ∧ 0 < b.seekChunkLen ∧ b.seekChunkLen < 2 ^ 31 ∧ b.numSeekChunks < 2 ^ 31

instance (b : Bundle) : Decidable b.Valid := by
  unfold Bundle.Valid
  exact inferInstance

/-! ## Parallel decompression (src/bundle/src/lib.rs:56-78)

The output buffer of `totalRawLen` zero bytes is split into slices of
`seekChunkLen` bytes (`par_chunks_mut`), and each compressed chunk is
decompressed into its own slice.  The Oodle decompressor is an external
library and is taken as an opaque function from the compressed chunk and
the destination-slice length to the produced bytes; the code writes those
bytes at the start of the slice, the rest of the slice keeping its prior
(zero) content, and a produced overrun cannot escape the slice. -/

/-- One in-place chunk write: the produced bytes `d` overwrite the start
of destination slice `s`; output length always equals the slice length. -/
def writeChunk (d s : List Nat) : List Nat :=
  (d ++ s.drop d.length).take s.length

/-- Pairing of compressed chunks with destination slices, as rayon's
`zip` does: iteration stops at the shorter side, and destination slices
without a chunk keep their contents. -/
def zipWrite (oodle : List Nat → Nat → List Nat) :
    List (List Nat) → List (List Nat) → List (List Nat)
  | _, [] => []
  | [], ss => ss
  | c :: cs, s :: ss => writeChunk (oodle c s.length) s :: zipWrite oodle cs ss

/-- Splitting a list into consecutive pieces of `n` elements (the last
piece shorter), as `par_chunks_mut(n)` partitions the buffer.  The first
argument is fuel, always instantiated with the list length; each step
consumes at least one element when `1 ≤ n`. -/
def chunksListAux : Nat → Nat → List Nat → List (List Nat)
  | 0, _, _ => []
  | _, _, [] => []
  | fuel + 1, n, x :: xs => ((x :: xs).take n) :: chunksListAux fuel n ((x :: xs).drop n)

/-- Splitting a list into consecutive pieces of `n` elements. -/
def chunksList (n : Nat) (xs : List Nat) : List (List Nat) :=
  chunksListAux xs.length n xs

/-- Concatenation of a list of byte lists. -/
def flat : List (List Nat) → List Nat
  | [] => []
  | x :: xs => x ++ flat xs

/-- Models `Bundle::_decompress` (src/bundle/src/lib.rs:56-78) with the
Oodle library abstracted as `oodle`.  `totalRawLen as usize` is the raw
u64 pattern; `seekChunkLen as usize` sign-extends the i32 pattern;
`par_chunks_mut(0)` panics in Rust, modelled as `none`. -/
def Bundle.decompress (oodle : List Nat → Nat → List Nat) (b : Bundle) : Option (List Nat) :=
  let total := b.totalRawLen
  let block := i32AsUsize b.seekChunkLen
  if block = 0 then none
  else some (flat (zipWrite oodle b.chunks (chunksList block (List.replicate total 0))))

/-! ## Index payload (src/bundle/src/index.rs) -/

/-- Mirrors `struct BundleRecord` (src/bundle/src/index.rs:384-388); the
path string is kept as its UTF-8 byte list. -/
structure BundleRecord where
  path : List Nat
  uncompressed_size : Nat
  deriving DecidableEq, Repr

/-- Mirrors `struct FileRecord` (src/bundle/src/index.rs:474-482), a
packed 20-byte record. -/
structure FileRecord where
  hash : Nat
  bundle_idx : Nat
  offset : Nat
  size : Nat
  deriving DecidableEq, Repr

/-- Mirrors `struct PathRecord` (src/bundle/src/index.rs:533-540), a
packed 20-byte record. -/
structure PathRecord where
  hash : Nat
  offset : Nat
  size : Nat
  recursive_length : Nat
  deriving DecidableEq, Repr

/-- Mirrors `struct Index` (src/bundle/src/index.rs:19-27) without the
memoization cell, which holds no parsed data. -/
structure Index where
  bundles : List BundleRecord
  files : List FileRecord
  paths : List PathRecord
  path_bundle : Bundle
  deriving DecidableEq, Repr

/-- Models `TryFrom<&[u8]> for BundleRecord` (src/bundle/src/index.rs:436-472)
applied to the tail of the payload.  `none` covers both the function's
typed `UnexpectedEof` returns and the UTF-8 `.expect` panic; which of the
two occurs is not distinguished because no caller in the repo does. -/
def bundleRecordTryFrom (value : List Nat) : Option BundleRecord :=
  if value.length < 4 then none
  else
    let str_len := leNat (value.take 4)
    let record_size := 4 + str_len + 4
    if value.length < record_size then none
    else
      let pathBytes := (value.drop 4).take str_len
      if utf8Valid pathBytes then
        some ⟨pathBytes, leNat ((value.drop (4 + str_len)).take 4)⟩
      else none

/-- The bundle-table loop of index parsing (src/bundle/src/index.rs:340-345):
`count` records are read, each advancing the offset by its own size; the
`&value[offset..]` indexing panics (`none`) when the offset passes the end. -/
def parseBundleRecords : Nat → List Nat → Nat → Option (List BundleRecord × Nat)
  | 0, _, off => some ([], off)
  | k + 1, value, off =>
    if off ≤ value.length then
      match bundleRecordTryFrom (value.drop off) with
      | none => none
      | some r =>
        match parseBundleRecords k value (off + (4 + r.path.length + 4)) with
        | none => none
        | some (rs, off') => some (r :: rs, off')
    else none

/-- The file-table loop of index parsing (src/bundle/src/index.rs:351-357):
each record is the 20 bytes at the offset (hash u64, bundle_idx u32,
offset u32, size u32, little-endian); the slice indexing panics (`none`)
when fewer than 20 bytes remain. -/
def parseFileRecords : Nat → List Nat → Nat → Option (List FileRecord × Nat)
  | 0, _, off => some ([], off)
  | k + 1, value, off =>
    if off + 20 ≤ value.length then
      let s := (value.drop off).take 20
      let r : FileRecord :=
        ⟨leNat (s.take 8), leNat ((s.drop 8).take 4),
         leNat ((s.drop 12).take 4), leNat ((s.drop 16).take 4)⟩
      match parseFileRecords k value (off + 20) with
      | none => none
      | some (rs, off') => some (r :: rs, off')
    else none

/-- The path-table loop of index parsing (src/bundle/src/index.rs:363-369):
each record is the 20 bytes at the offset (hash u64, offset u32, size u32,
recursive_length u32). -/
def parsePathRecords : Nat → List Nat → Nat → Option (List PathRecord × Nat)
  | 0, _, off => some ([], off)
  | k + 1, value, off =>
    if off + 20 ≤ value.length then
      let s := (value.drop off).take 20
      let r : PathRecord :=
        ⟨leNat (s.take 8), leNat ((s.drop 8).take 4),
         leNat ((s.drop 12).take 4), leNat ((s.drop 16).take 4)⟩
      match parsePathRecords k value (off + 20) with
      | none => none
      | some (rs, off') => some (r :: rs, off')
    else none

/-- Models `TryFrom<&[u8]> for Index` (src/bundle/src/index.rs:331-382):
three length-prefixed tables followed by the nested path-dictionary
bundle.  No check relates any `FileRecord.bundle_idx` to the bundle
count; the only failures are short-input panics inside the loops and the
final `Bundle::try_from(..).unwrap()`. -/
def indexTryFrom (value : List Nat) : Option Index :=
  if 4 ≤ value.length then
    let bundle_count := leNat (value.take 4)
    match parseBundleRecords bundle_count value 4 with
    | none => none
    | some (bundles, o1) =>
      if o1 + 4 ≤ value.length then
        let file_count := leNat ((value.drop o1).take 4)
        match parseFileRecords file_count value (o1 + 4) with
        | none => none
        | some (files, o2) =>
          if o2 + 4 ≤ value.length then
            let path_count := leNat ((value.drop o2).take 4)
            match parsePathRecords path_count value (o2 + 4) with
            | none => none
            | some (paths, o3) =>
              match bundleTryFrom (value.drop o3) with
              | none => none
              | some pb => some ⟨bundles, files, paths, pb⟩
          else none
      else none
  else none

/-! ## Path-dictionary decoding (src/bundle/src/index.rs:156-204)

`build_paths` first collects the file records into a hash-keyed map
(`files.iter().map(|f| (f.hash, f)).collect()`, where a later record with
the same hash replaces an earlier one), then walks each `PathRecord`
slice of the decompressed path bundle.  The murmurhash64a function comes
from an external crate and is abstracted as a parameter `murmur`, applied
to the UTF-8 bytes of a reconstructed path; the code always instantiates
it with seed 0x1337b33f.  An emitted insertion is recorded as the triple
(map key used, path bytes, file record). -/

/-- HashMap collect over `(f.hash, f)` pairs followed by `get`: the last
record with the given hash wins. -/
def findLast (files : List FileRecord) (h : Nat) : Option FileRecord :=
  files.reverse.find? (fun f => f.hash == h)

/-- How a path-record walk can abort: an out-of-range read (Rust slice
panic), a missing null terminator (`find_cstring` returns `None`, then
`.unwrap()` panics), invalid UTF-8 in a fragment, or fuel exhaustion of
this embedding (never reached with the fuel the wrappers pass). -/
inductive WalkErr where
  | oob
  | noNull
  | badUtf8
  | fuel
  deriving DecidableEq, Repr

/-- One insertion into the extraction map: key, path bytes, record. -/
abbrev Emit := Nat × List Nat × FileRecord

/-- Fragment construction (src/bundle/src/index.rs:181-185): when the
decremented index is in range, the referenced earlier fragment is
prepended to the just-read string. -/
def mkFrag (frags : List (List Nat)) (i : Nat) (sb : List Nat) : List Nat :=
  match frags.get? i with
  | some prev => prev ++ sb
  | none => sb

/-- The else-branch of the walk loop (src/bundle/src/index.rs:178-199)
for an already-read index word `v ≠ 0`: decrement, read a
null-terminated string, build the fragment via `mkFrag`, push it, and
when not building look the path's hash up and emit the insertion (a miss
only logs).  Returns the new offset, the new fragment list, and the
emitted insertions. -/
def procIndex (murmur : List Nat → Nat) (files : List FileRecord) (slice : List Nat)
    (off : Nat) (v : Nat) (building : Bool) (frags : List (List Nat)) :
    Except WalkErr (Nat × List (List Nat) × List Emit) :=
  match find_cstring slice off with
  | .panicOob => .error .oob
  | .panicUtf8 => .error .badUtf8
  | .noNull => .error .noNull
  | .found sb off' =>
    if building then .ok (off', frags ++ [mkFrag frags (v - 1) sb], [])
    else
      match findLast files (murmur (mkFrag frags (v - 1) sb)) with
      | some fr =>
        .ok (off', frags ++ [mkFrag frags (v - 1) sb], [(fr.bundle_idx, mkFrag frags (v - 1) sb, fr)])
      | none => .ok (off', frags ++ [mkFrag frags (v - 1) sb], [])

/-- The walk loop (src/bundle/src/index.rs:171-200): while
`off < bound`, read a u32; zero toggles `building` (clearing the
fragments when it just became true), otherwise the word is processed by
`procIndex`.  Structured on explicit fuel; wrappers pass
`slice.length + 1`, which can never run out because each iteration
advances the offset by at least 4. -/
def walkLoop (murmur : List Nat → Nat) (files : List FileRecord) (slice : List Nat)
    (bound : Nat) :
    Nat → Nat → Bool → List (List Nat) → List Emit → Except WalkErr (List Emit)
  | 0, _, _, _, _ => .error .fuel
  | fuel + 1, off, building, frags, acc =>
    if off < bound then
      match read_u32 slice off with
      | none => .error .oob
      | some (v, off') =>
        if v = 0 then
          let building' := !building
          walkLoop murmur files slice bound fuel off' building'
            (if building' then [] else frags) acc
        else
          match procIndex murmur files slice off' v building frags with
          | .error e => .error e
          | .ok (off'', frags', delta) =>
            walkLoop murmur files slice bound fuel off'' building frags' (acc ++ delta)
    else .ok acc

/-- The loop bound `size - 4` computed in wrapping usize arithmetic
(src/bundle/src/index.rs:171): for `size < 4` it wraps around to a value
close to 2^64. -/
def recordBound (size : Nat) : Nat :=
  (size + (2 ^ 64 - 4)) % 2 ^ 64

/-- The walk of one path-record slice (src/bundle/src/index.rs:167-200):
an initial u32 is read and only compared with zero to choose the starting
mode (its value is otherwise dropped), then the loop runs with bound
`size - 4` in wrapping arithmetic, where `size` is the slice length. -/
def walkRecord (murmur : List Nat → Nat) (files : List FileRecord) (slice : List Nat) :
    Except WalkErr (List Emit) :=
  match read_u32 slice 0 with
  | none => .error .oob
  | some (v, off) =>
    walkLoop murmur files slice (recordBound slice.length) (slice.length + 1)
      off (v == 0) [] []

/-- Modelled from the spec (§4.3 path dictionary decoding, initial read):
when the initial u32 is non-zero, `building` becomes false and the u32 is
treated as the first frag index, read and processed exactly as indices
read inside the loop are; the loop then continues.  This definition
exists only to compare the spec's words with `walkRecord`, the embedding
of the code. -/
def walkRecordSpec (murmur : List Nat → Nat) (files : List FileRecord) (slice : List Nat) :
    Except WalkErr (List Emit) :=
  match read_u32 slice 0 with
  | none => .error .oob
  | some (v, off) =>
    if v = 0 then
      walkLoop murmur files slice (recordBound slice.length) (slice.length + 1)
        off true [] []
    else
      match procIndex murmur files slice off v false [] with
      | .error e => .error e
      | .ok (off', frags', delta) =>
        walkLoop murmur files slice (recordBound slice.length) (slice.length + 1)
          off' false frags' delta

/-- The per-record step of `build_paths` (src/bundle/src/index.rs:165-166):
slice `bytes[offset .. offset+size]` out of the decompressed path bundle
(a range past the end panics) and walk it. -/
def buildPathsRecord (murmur : List Nat → Nat) (files : List FileRecord)
    (bytes : List Nat) (pr : PathRecord) : Except WalkErr (List Emit) :=
  if pr.offset + pr.size ≤ bytes.length then
    walkRecord murmur files ((bytes.drop pr.offset).take pr.size)
  else .error .oob

/-! ## Extraction pipeline (src/bundle/src/index.rs:49-133)

The filesystem is abstracted: `fs` maps a file name under the
`<input>/Bundles2` directory (as a byte list) to its content when the
file exists.  Writing is represented by the bytes each file write
produces; the pipeline's return value is the total count of written
bytes.  `none` models a panic (`unwrap` of a read/parse/decompress
failure, or the `assert_eq!` after a write) aborting the extraction. -/

/-- The UTF-8 bytes of the string "shadercache". -/
def shadercacheBytes : List Nat :=
  [115, 104, 97, 100, 101, 114, 99, 97, 99, 104, 101]

/-- The UTF-8 bytes of the file-name tail ".bundle.bin". -/
def dotBundleBin : List Nat :=
  [46, 98, 117, 110, 100, 108, 101, 46, 98, 105, 110]

/-- Substring test on byte lists: does `needle` occur contiguously in the
second argument? -/
def containsSub (needle : List Nat) : List Nat → Bool
  | [] => needle.isEmpty
  | x :: rest => needle.isPrefixOf (x :: rest) || containsSub needle rest

/-- The per-file slice-and-write step (src/bundle/src/index.rs:104-119):
slice `data[offset .. offset+size]` (a range past the end panics), write
it, and `assert_eq!` the written byte count against `size`.  Returns the
written content and the byte count. -/
def fileWrite (data : List Nat) (f : FileRecord) : Option (List Nat × Nat) :=
  if f.offset + f.size ≤ data.length then
    let slice := (data.drop f.offset).take f.size
    let bytes := slice.length
    if bytes = f.size then some (slice, bytes) else none
  else none

/-- Sum of optional byte counts; any panic (`none`) aborts the whole
aggregation, as an unwind does across rayon's parallel sum. -/
def sumOpt : List (Option Nat) → Option Nat
  | [] => some 0
  | o :: rest => o.bind (fun a => (sumOpt rest).map (fun b => a + b))

/-- The per-bundle closure of `Index::extract`
(src/bundle/src/index.rs:67-131): build `<path>.bundle.bin`; a missing
file is skipped, contributing 0 bytes; otherwise the file is read, parsed
as a bundle, decompressed, and the bundle's files — filtered again per
path component for "shadercache" unless `shaders` — are sliced and
written, their byte counts summed. -/
def perBundle (oodle : List Nat → Nat → List Nat) (fs : List Nat → Option (List Nat))
    (shaders : Bool) (rec : BundleRecord × List (List Nat × FileRecord)) : Option Nat :=
  match fs (rec.1.path ++ dotBundleBin) with
  | none => some 0
  | some fileBytes => do
    let b ← bundleTryFrom fileBytes
    let data ← b.decompress oodle
    let files := rec.2.filter
      (fun pf => shaders || !((pf.1.splitOn 47).any (fun c => containsSub shadercacheBytes c)))
    sumOpt (files.map (fun pf => (fileWrite data pf.2).map (fun r => r.2)))

/-- Models `Index::extract` (src/bundle/src/index.rs:49-133) over an
explicit record list: bundles whose path contains "shadercache" are
dropped first unless `shaders`, each remaining bundle is processed by
`perBundle`, and the per-bundle byte counts are summed. -/
def extract (oodle : List Nat → Nat → List Nat) (fs : List Nat → Option (List Nat))
    (shaders : Bool) (records : List (BundleRecord × List (List Nat × FileRecord))) :
    Option Nat :=
  sumOpt
    (((records.filter (fun r => shaders || !containsSub shadercacheBytes r.1.path)).map
      (perBundle oodle fs shaders)))

/-! ## Helper lemmas about the byte cursor and the walk -/

theorem read_u32_eq_some {s : List Nat} {off v o : Nat}
    (h : read_u32 s off = some (v, o)) : o = off + 4 ∧ off + 4 ≤ s.length := by
  unfold read_u32 at h
  split at h
  · next hc => cases h; exact ⟨rfl, hc⟩
  · cases h

theorem findNull_lt_length : ∀ {l : List Nat} {p : Nat}, findNull l = some p → p < l.length := by
  intro l
  induction l with
  | nil => intro p h; cases h
  | cons b rest ih =>
    intro p h
    unfold findNull at h
    split at h
    · cases h; exact Nat.succ_pos _
    · cases hr : findNull rest with
      | none => rw [hr] at h; cases h
      | some q =>
        rw [hr] at h
        simp only [Option.map_some'] at h
        cases h
        have := ih hr
        simp only [List.length_cons]
        omega

theorem find_cstring_found {s : List Nat} {off : Nat} {bs : List Nat} {o : Nat}
    (h : find_cstring s off = .found bs o) : off < o ∧ o ≤ s.length := by
  unfold find_cstring at h
  split at h
  · rename_i hle
    split at h
    · cases h
    · rename_i pos hn
      have hlt : pos < s.length - off := by
        have := findNull_lt_length hn
        simpa using this
      split at h
      · cases h
        omega
      · cases h
  · cases h

theorem find_cstring_not_oob {s : List Nat} {off : Nat} (hle : off ≤ s.length) :
    find_cstring s off ≠ .panicOob := by
  unfold find_cstring
  rw [if_pos hle]
  split
  · simp
  · split
    · simp
    · simp

theorem procIndex_ok_bounds {murmur : List Nat → Nat} {files : List FileRecord}
    {slice : List Nat} {off v : Nat} {b : Bool} {frags : List (List Nat)}
    {o : Nat} {g : List (List Nat)} {d : List Emit}
    (h : procIndex murmur files slice off v b frags = .ok (o, g, d)) :
    off < o ∧ o ≤ slice.length := by
  unfold procIndex at h
  split at h
  · cases h
  · cases h
  · cases h
  · rename_i bs o' hc
    have hb := find_cstring_found hc
    split at h
    · cases h; exact hb
    · split at h
      · cases h; exact hb
      · cases h; exact hb

theorem procIndex_error_cases {murmur : List Nat → Nat} {files : List FileRecord}
    {slice : List Nat} {off v : Nat} {b : Bool} {frags : List (List Nat)} {e : WalkErr}
    (hle : off ≤ slice.length)
    (h : procIndex murmur files slice off v b frags = .error e) :
    e = .noNull ∨ e = .badUtf8 := by
  unfold procIndex at h
  split at h
  · rename_i hc
    exact absurd hc (find_cstring_not_oob hle)
  · cases h; right; rfl
  · cases h; left; rfl
  · split at h
    · cases h
    · split at h
      · cases h
      · cases h

theorem procIndex_delta {murmur : List Nat → Nat} {files : List FileRecord}
    {slice : List Nat} {off v : Nat} {b : Bool} {frags : List (List Nat)}
    {o : Nat} {g : List (List Nat)} {d : List Emit}
    (h : procIndex murmur files slice off v b frags = .ok (o, g, d)) :
    d = [] ∨ ∃ s fr, findLast files (murmur s) = some fr ∧ d = [(fr.bundle_idx, s, fr)] := by
  unfold procIndex at h
  split at h
  · cases h
  · cases h
  · cases h
  · rename_i bs o' hc
    split at h
    · cases h; left; rfl
    · split at h
      · rename_i fr hf
        cases h
        right
        exact ⟨mkFrag frags (v - 1) bs, fr, hf, rfl⟩
      · cases h; left; rfl

theorem findLast_hash {files : List FileRecord} {h : Nat} {fr : FileRecord}
    (hf : findLast files h = some fr) : fr.hash = h := by
  unfold findLast at hf
  have := List.find?_some hf
  simpa using this

theorem drop_agree {s₁ s₂ : List Nat} (hd : s₁.drop 4 = s₂.drop 4) {off : Nat}
    (h4 : 4 ≤ off) : s₁.drop off = s₂.drop off := by
  have e1 : (s₁.drop 4).drop (off - 4) = s₁.drop off := by
    rw [List.drop_drop]
    congr 1
    omega
  have e2 : (s₂.drop 4).drop (off - 4) = s₂.drop off := by
    rw [List.drop_drop]
    congr 1
    omega
  rw [← e1, ← e2, hd]

theorem read_u32_agree {s₁ s₂ : List Nat} (hlen : s₁.length = s₂.length)
    (hd : s₁.drop 4 = s₂.drop 4) {off : Nat} (h4 : 4 ≤ off) :
    read_u32 s₁ off = read_u32 s₂ off := by
  unfold read_u32
  rw [hlen, drop_agree hd h4]

theorem find_cstring_agree {s₁ s₂ : List Nat} (hlen : s₁.length = s₂.length)
    (hd : s₁.drop 4 = s₂.drop 4) {off : Nat} (h4 : 4 ≤ off) :
    find_cstring s₁ off = find_cstring s₂ off := by
  unfold find_cstring
  rw [hlen, drop_agree hd h4]

theorem procIndex_agree (murmur : List Nat → Nat) (files : List FileRecord)
    {s₁ s₂ : List Nat} (hlen : s₁.length = s₂.length) (hd : s₁.drop 4 = s₂.drop 4)
    {off : Nat} (h4 : 4 ≤ off) (v : Nat) (b : Bool) (frags : List (List Nat)) :
    procIndex murmur files s₁ off v b frags = procIndex murmur files s₂ off v b frags := by
  unfold procIndex
  rw [find_cstring_agree hlen hd h4]

theorem walkLoop_agree (murmur : List Nat → Nat) (files : List FileRecord)
    {s₁ s₂ : List Nat} (bound : Nat) (hlen : s₁.length = s₂.length)
    (hd : s₁.drop 4 = s₂.drop 4) :
    ∀ fuel off building frags acc, 4 ≤ off →
      walkLoop murmur files s₁ bound fuel off building frags acc
        = walkLoop murmur files s₂ bound fuel off building frags acc := by
  intro fuel
  induction fuel with
  | zero => intro off b f a h4; rfl
  | succ n ih =>
    intro off b f a h4
    simp only [walkLoop]
    by_cases hb : off < bound
    · rw [if_pos hb, if_pos hb]
      rw [read_u32_agree hlen hd h4]
      split
      · rfl
      · rename_i v off' heq
        obtain ⟨ho1, _⟩ := read_u32_eq_some heq
        subst ho1
        by_cases hv : v = 0
        · rw [if_pos hv, if_pos hv]
          exact ih (off + 4) _ _ _ (by omega)
        · rw [if_neg hv, if_neg hv]
          rw [procIndex_agree murmur files hlen hd (by omega) v b f]
          split
          · rfl
          · rename_i o' f' d hp
            have hbd := procIndex_ok_bounds hp
            exact ih o' _ _ _ (by omega)
    · rw [if_neg hb, if_neg hb]

/-- Whether a walk result is a success; misses in the hash lookup never
make it false, only read failures do. -/
def exceptOk : Except WalkErr (List Emit) → Bool
  | .ok _ => true
  | .error _ => false

theorem walkLoop_mem (murmur : List Nat → Nat) (files : List FileRecord)
    (slice : List Nat) (bound : Nat) :
    ∀ fuel off b frags acc l,
      walkLoop murmur files slice bound fuel off b frags acc = .ok l →
      ∀ e, e ∈ l → e ∈ acc ∨ (e.2.2.hash = murmur e.2.1 ∧ e.1 = e.2.2.bundle_idx) := by
  intro fuel
  induction fuel with
  | zero => intro off b frags acc l h; cases h
  | succ n ih =>
    intro off b frags acc l h
    rw [walkLoop] at h
    split at h
    · split at h
      · cases h
      · rename_i v off' heq
        split at h
        · exact fun e he => ih _ _ _ _ _ h e he
        · split at h
          · cases h
          · rename_i o' f' d hp
            intro e he
            rcases ih _ _ _ _ _ h e he with hacc | hgood
            · rcases List.mem_append.mp hacc with h1 | h2
              · exact Or.inl h1
              · rcases procIndex_delta hp with hnil | ⟨s, fr, hf, hd⟩
                · rw [hnil] at h2; cases h2
                · rw [hd] at h2
                  rcases List.mem_singleton.mp h2 with rfl
                  right
                  exact ⟨findLast_hash hf, rfl⟩
            · exact Or.inr hgood
    · cases h
      intro e he
      exact Or.inl he

theorem procIndex_shape (murmur : List Nat → Nat) (files₁ files₂ : List FileRecord)
    (slice : List Nat) (off v : Nat) (b : Bool) (frags : List (List Nat)) :
    (∃ e, procIndex murmur files₁ slice off v b frags = .error e
        ∧ procIndex murmur files₂ slice off v b frags = .error e)
    ∨ (∃ o g d₁ d₂, procIndex murmur files₁ slice off v b frags = .ok (o, g, d₁)
        ∧ procIndex murmur files₂ slice off v b frags = .ok (o, g, d₂)) := by
  unfold procIndex
  cases find_cstring slice off with
  | panicOob => exact Or.inl ⟨_, rfl, rfl⟩
  | panicUtf8 => exact Or.inl ⟨_, rfl, rfl⟩
  | noNull => exact Or.inl ⟨_, rfl, rfl⟩
  | found bs o' =>
    cases b with
    | true => exact Or.inr ⟨_, _, _, _, rfl, rfl⟩
    | false =>
      dsimp only [Bool.false_eq_true, if_false]
      cases findLast files₁ (murmur (mkFrag frags (v - 1) bs)) with
      | some fr₁ =>
        cases findLast files₂ (murmur (mkFrag frags (v - 1) bs)) with
        | some fr₂ => exact Or.inr ⟨_, _, _, _, rfl, rfl⟩
        | none => exact Or.inr ⟨_, _, _, _, rfl, rfl⟩
      | none =>
        cases findLast files₂ (murmur (mkFrag frags (v - 1) bs)) with
        | some fr₂ => exact Or.inr ⟨_, _, _, _, rfl, rfl⟩
        | none => exact Or.inr ⟨_, _, _, _, rfl, rfl⟩

theorem walkLoop_indep (murmur : List Nat → Nat) (slice : List Nat) (bound : Nat)
    (files₁ files₂ : List FileRecord) :
    ∀ fuel off b frags acc₁ acc₂,
      exceptOk (walkLoop murmur files₁ slice bound fuel off b frags acc₁)
        = exceptOk (walkLoop murmur files₂ slice bound fuel off b frags acc₂) := by
  intro fuel
  induction fuel with
  | zero => intro off b frags acc₁ acc₂; rfl
  | succ n ih =>
    intro off b frags acc₁ acc₂
    simp only [walkLoop]
    by_cases hb : off < bound
    · rw [if_pos hb, if_pos hb]
      split
      · rfl
      · rename_i v off' heq
        by_cases hv : v = 0
        · rw [if_pos hv, if_pos hv]
          exact ih _ _ _ _ _
        · rw [if_neg hv, if_neg hv]
          rcases procIndex_shape murmur files₁ files₂ slice off' v b frags with
            ⟨e, hp, hq⟩ | ⟨o, g, d₁, d₂, hp, hq⟩
          · simp only [hp, hq]
          · simp only [hp, hq]
            exact ih _ _ _ _ _
    · rw [if_neg hb, if_neg hb]
      rfl

/-! ## Lemmas about buffer chunking (for the decompression layout) -/

theorem chunksListAux_nil (fuel n : Nat) : chunksListAux fuel n [] = [] := by
  cases fuel <;> rfl

theorem chunksListAux_fuel_irrel (n : Nat) (hn : 1 ≤ n) :
    ∀ fuel₁ fuel₂ xs, xs.length ≤ fuel₁ → xs.length ≤ fuel₂ →
      chunksListAux fuel₁ n xs = chunksListAux fuel₂ n xs := by
  intro fuel₁
  induction fuel₁ with
  | zero =>
    intro fuel₂ xs h1 h2
    have hx : xs = [] := List.length_eq_zero.mp (Nat.le_zero.mp h1)
    subst hx
    rw [chunksListAux_nil, chunksListAux_nil]
  | succ m ih =>
    intro fuel₂ xs h1 h2
    cases xs with
    | nil => rw [chunksListAux_nil, chunksListAux_nil]
    | cons x l =>
      cases fuel₂ with
      | zero => simp at h2
      | succ m₂ =>
        simp only [chunksListAux]
        congr 1
        apply ih
        · simp only [List.length_drop, List.length_cons]
          simp only [List.length_cons] at h1
          omega
        · simp only [List.length_drop, List.length_cons]
          simp only [List.length_cons] at h2
          omega

theorem chunksList_cons (n : Nat) (hn : 1 ≤ n) (x : Nat) (l : List Nat) :
    chunksList n (x :: l) = (x :: l).take n :: chunksList n ((x :: l).drop n) := by
  unfold chunksList
  simp only [List.length_cons, chunksListAux]
  congr 1
  apply chunksListAux_fuel_irrel n hn
  · simp only [List.length_drop, List.length_cons]
    omega
  · exact Nat.le_refl _

theorem flat_chunksListAux (n : Nat) (hn : 1 ≤ n) :
    ∀ fuel xs, xs.length ≤ fuel → flat (chunksListAux fuel n xs) = xs := by
  intro fuel
  induction fuel with
  | zero =>
    intro xs h
    have hx : xs = [] := List.length_eq_zero.mp (Nat.le_zero.mp h)
    subst hx
    rfl
  | succ m ih =>
    intro xs h
    cases xs with
    | nil => rfl
    | cons x l =>
      simp only [chunksListAux, flat]
      rw [ih]
      · exact List.take_append_drop n (x :: l)
      · simp only [List.length_drop, List.length_cons]
        simp only [List.length_cons] at h
        omega

theorem flat_chunksList (n : Nat) (hn : 1 ≤ n) (xs : List Nat) :
    flat (chunksList n xs) = xs :=
  flat_chunksListAux n hn xs.length xs (Nat.le_refl _)

theorem ceil_shift (n len : Nat) (hn : 1 ≤ n) (hl : 1 ≤ len) :
    natCeilDiv len n = (len - 1) / n + 1 := by
  unfold natCeilDiv
  have he : len + n - 1 = (len - 1) + n := by omega
  rw [he, Nat.add_div_right _ (by omega)]

theorem natCeilDiv_succ_sub {n len : Nat} (hn : 1 ≤ n) (hl : 1 ≤ len) :
    natCeilDiv (len - n) n + 1 = natCeilDiv len n := by
  rcases le_or_lt len n with hle | hgt
  · have h0 : len - n = 0 := by omega
    rw [h0, ceil_shift n len hn hl]
    have h1 : (len - 1) / n = 0 := Nat.div_eq_of_lt (by omega)
    rw [h1]
    unfold natCeilDiv
    have h2 : (0 + n - 1) / n = 0 := Nat.div_eq_of_lt (by omega)
    rw [h2]
  · have hl2 : 1 ≤ len - n := by omega
    rw [ceil_shift n (len - n) hn hl2, ceil_shift n len hn hl]
    have he : len - 1 = (len - n - 1) + n := by omega
    rw [he, Nat.add_div_right _ (by omega)]

theorem chunksListAux_length (n : Nat) (hn : 1 ≤ n) :
    ∀ fuel xs, xs.length ≤ fuel →
      (chunksListAux fuel n xs).length = natCeilDiv xs.length n := by
  intro fuel
  induction fuel with
  | zero =>
    intro xs h
    have hx : xs = [] := List.length_eq_zero.mp (Nat.le_zero.mp h)
    subst hx
    rw [chunksListAux_nil]
    show 0 = natCeilDiv 0 n
    unfold natCeilDiv
    exact (Nat.div_eq_of_lt (by omega)).symm
  | succ m ih =>
    intro xs h
    cases xs with
    | nil =>
      rw [chunksListAux_nil]
      show 0 = natCeilDiv 0 n
      unfold natCeilDiv
      exact (Nat.div_eq_of_lt (by omega)).symm
    | cons x l =>
      simp only [chunksListAux, List.length_cons]
      rw [ih _ (by simp only [List.length_drop, List.length_cons]; simp only [List.length_cons] at h; omega)]
      simp only [List.length_drop, List.length_cons]
      exact natCeilDiv_succ_sub hn (by omega)

theorem chunksList_length (n : Nat) (hn : 1 ≤ n) (xs : List Nat) :
    (chunksList n xs).length = natCeilDiv xs.length n :=
  chunksListAux_length n hn xs.length xs (Nat.le_refl _)

theorem writeChunk_length (d s : List Nat) : (writeChunk d s).length = s.length := by
  unfold writeChunk
  simp only [List.length_take, List.length_append, List.length_drop]
  omega

theorem zipWrite_mapLen (oodle : List Nat → Nat → List Nat) :
    ∀ cs ss, (zipWrite oodle cs ss).map List.length = ss.map List.length := by
  intro cs
  induction cs with
  | nil => intro ss; cases ss <;> rfl
  | cons c cs ih =>
    intro ss
    cases ss with
    | nil => rfl
    | cons s ss =>
      simp only [zipWrite, List.map_cons, writeChunk_length]
      rw [ih]

theorem flat_length (l : List (List Nat)) : (flat l).length = (l.map List.length).sum := by
  induction l with
  | nil => rfl
  | cons x xs ih => simp [flat, ih]

/-- The piece-length discipline `par_chunks_mut` produces: every piece
but the last has exactly `n` elements, the last between 1 and `n`. -/
def ChunkShape (n : Nat) : List (List Nat) → Prop
  | [] => True
  | s :: rest =>
    (rest = [] → 1 ≤ s.length ∧ s.length ≤ n)
    ∧ (rest ≠ [] → s.length = n) ∧ ChunkShape n rest

theorem chunksShape_aux (n : Nat) (hn : 1 ≤ n) :
    ∀ fuel xs, xs.length ≤ fuel → ChunkShape n (chunksListAux fuel n xs) := by
  intro fuel
  induction fuel with
  | zero =>
    intro xs h
    have hx : xs = [] := List.length_eq_zero.mp (Nat.le_zero.mp h)
    subst hx
    trivial
  | succ m ih =>
    intro xs h
    cases xs with
    | nil => trivial
    | cons x l =>
      simp only [chunksListAux]
      refine ⟨?_, ?_, ih _ ?_⟩
      · intro _
        simp only [List.length_take, List.length_cons]
        omega
      · intro hne
        have hys : (x :: l).drop n ≠ [] := by
          intro h0
          rw [h0, chunksListAux_nil] at hne
          exact hne rfl
        have hpos : 0 < ((x :: l).drop n).length := List.length_pos.mpr hys
        simp only [List.length_drop, List.length_cons] at hpos
        simp only [List.length_take, List.length_cons]
        omega
      · simp only [List.length_drop, List.length_cons]
        simp only [List.length_cons] at h
        omega

theorem chunksList_shape (n : Nat) (hn : 1 ≤ n) (xs : List Nat) :
    ChunkShape n (chunksList n xs) :=
  chunksShape_aux n hn xs.length xs (Nat.le_refl _)

theorem chunkShape_of_mapLen {n : Nat} :
    ∀ {ss tt : List (List Nat)}, ss.map List.length = tt.map List.length →
      ChunkShape n ss → ChunkShape n tt := by
  intro ss
  induction ss with
  | nil =>
    intro tt h _
    cases tt with
    | nil => trivial
    | cons t tt => simp at h
  | cons s ss ih =>
    intro tt h hs
    cases tt with
    | nil => simp at h
    | cons t tt =>
      simp only [List.map_cons, List.cons.injEq] at h
      obtain ⟨h1, h2⟩ := h
      obtain ⟨ha, hb, hc⟩ := hs
      refine ⟨?_, ?_, ih h2 hc⟩
      · intro htt
        subst htt
        have hss : ss = [] := by
          simp only [List.map_nil] at h2
          exact List.map_eq_nil_iff.mp h2
        rw [← h1]
        exact ha hss
      · intro htt
        have hss : ss ≠ [] := by
          intro h0
          subst h0
          simp only [List.map_nil] at h2
          exact htt (List.map_eq_nil_iff.mp h2.symm)
        rw [← h1]
        exact hb hss

theorem rechunk (n : Nat) (hn : 1 ≤ n) :
    ∀ ss, ChunkShape n ss → chunksList n (flat ss) = ss := by
  intro ss
  induction ss with
  | nil => intro _; rfl
  | cons s rest ih =>
    intro h
    obtain ⟨ha, hb, hc⟩ := h
    cases rest with
    | nil =>
      obtain ⟨h1, h2⟩ := ha rfl
      simp only [flat, List.append_nil]
      cases s with
      | nil => simp at h1
      | cons y ys =>
        rw [chunksList_cons n hn]
        rw [List.take_of_length_le h2, List.drop_eq_nil_of_le h2]
        rfl
    | cons r rrest =>
      have hslen : s.length = n := hb (by simp)
      simp only [flat]
      cases s with
      | nil =>
        simp at hslen
        omega
      | cons y ys =>
        simp only [List.cons_append]
        rw [chunksList_cons n hn]
        have htake : ((y :: ys) ++ flat (r :: rrest)).take n = y :: ys := by
          rw [← hslen]
          exact List.take_left _ _
        have hdrop : ((y :: ys) ++ flat (r :: rrest)).drop n = flat (r :: rrest) := by
          rw [← hslen]
          exact List.drop_left _ _
        simp only [List.cons_append, flat] at htake hdrop
        rw [htake, hdrop]
        have hih := ih hc
        simp only [flat] at hih
        rw [hih]

/-! ## Concrete inputs used by the theorems -/

/-- An 8 + 52 byte input whose header declares `compressed_size = 5` while
it contains zero seek chunks (so the chunk bytes sum to 0 ≠ 5, violating
the first §3 invariant). -/
def c6input : List Nat := [1, 0, 0, 0, 5, 0, 0, 0] ++ List.replicate 52 0

/-- The bundle value that parsing `c6input` produces. -/
def c6bundle : Bundle := ⟨1, 5, 0, 0, 0, 0, 0, 0, 0, 0, 0, [], none, []⟩

/-- The bundle parsed from 60 zero bytes (zero seek chunks). -/
def zeroBundle : Bundle := ⟨0, 0, 0, 0, 0, 0, 0, 0, 0, 0, 0, [], none, []⟩

/-- An index payload with `bundle_count = 0`, one file record whose
`bundle_idx` is the little-endian u32 `bidx`, no path records, and 60
zero bytes forming the nested path bundle. -/
def c8payload (bidx : Nat) : List Nat :=
  [0, 0, 0, 0, 1, 0, 0, 0] ++ List.replicate 8 0 ++ le4 bidx ++ List.replicate 8 0
    ++ [0, 0, 0, 0] ++ List.replicate 60 0

/-- The index value that parsing `c8payload bidx` produces. -/
def c8index (bidx : Nat) : Index := ⟨[], [⟨0, bidx, 0, 0⟩], [], zeroBundle⟩

/-! ## Claim theorems -/

/-- C1: serializing a parsed bundle cannot reproduce the input, because
serialization is not implemented: `From<Bundle<T>> for Vec<u8>` is
`value.into()`, which resolves to the same impl and recurses forever, so
no byte vector is ever produced at any recursion depth — even though
valid inputs (here 60 zero bytes) do parse into a bundle.  The claimed
round trip `serialize(parse(b)) == b` therefore fails for every valid
bundle; the repo's own `compress` test (src/bundle/src/index.rs:602-609)
expects `to_vec` to return the original bytes. -/
theorem c1_serialize_diverges :
    (bundleTryFrom (List.replicate 60 0)).isSome = true
    ∧ ∀ fuel b, bundleIntoVec fuel b = none := by
  refine ⟨by decide, ?_⟩
  intro fuel b
  induction fuel with
  | zero => rfl
  | succ n ih => exact ih

/-- C6: bundle parsing never returns `InvalidFormat`.  On an input too
short for a declared length it panics (the empty input already panics in
the first header read), and on an in-bounds input violating a §3
invariant (declared `compressed_size = 5` with zero chunks) it returns a
`Bundle` without any check.  The contrast with the claim is the code's
own `FIXME read utils need to be Result<_>` (src/bundle/src/lib.rs:251). -/
theorem c6_parse_never_errors :
    bundleTryFrom [] = none
    ∧ bundleTryFrom c6input = some c6bundle
    ∧ ¬ c6bundle.Valid := by
  refine ⟨rfl, by decide, by decide⟩

/-- C7: the byte-cursor reads do advance the offset by the number of
consumed bytes on success, but on a short slice they panic via slice
indexing instead of failing with `UnexpectedEof` — their types have no
error channel at all (src/bundle/src/util.rs:8-45, and the `FIXME read
utils need to be Result<_>` at src/bundle/src/lib.rs:251).  Evaluated
here at concrete short and adequate inputs for each primitive. -/
theorem c7_reads_panic_on_short_input :
    read_u32 [1, 2, 3] 0 = none
    ∧ read_u32 [1, 2, 3, 4] 0 = some (67305985, 4)
    ∧ read_u64 [0, 0, 0, 0, 0, 0, 0] 0 = none
    ∧ read_u64 [0, 0, 0, 0, 0, 0, 0, 0] 0 = some (0, 8)
    ∧ read_bytes [7, 7] 3 0 = none
    ∧ read_bytes [7, 7] 2 0 = some ([7, 7], 2)
    ∧ find_cstring [65, 66] 0 = .noNull
    ∧ find_cstring [65, 0] 0 = .found [65] 2
    ∧ find_cstring [1] 5 = .panicOob := by
  refine ⟨rfl, by decide, rfl, by decide, rfl, by decide, rfl, by decide, rfl⟩

/-- C2 counterexample: on the slice [1,0,0,0, 97,0] — first u32 is 1,
then the fragment "a" — the decoder (walkRecord) discards the initial
u32 and emits nothing, while the spec's described behaviour
(walkRecordSpec, which treats the initial non-zero u32 as the first frag
index exactly as in-loop indices) reads the fragment and emits it.  The
file table holds one record whose hash is the (abstracted) hash of "a". -/
theorem c2_counterexample :
    walkRecord (fun _ => 5) [⟨5, 2, 0, 0⟩] [1, 0, 0, 0, 97, 0] = .ok []
    ∧ walkRecordSpec (fun _ => 5) [⟨5, 2, 0, 0⟩] [1, 0, 0, 0, 97, 0]
        = .ok [(2, [97], ⟨5, 2, 0, 0⟩)] :=
  ⟨rfl, rfl⟩

/-- C8 counterexample: the payload `c8payload 5` contains a FileRecord
with `bundle_idx = 5` while `bundle_count = 0`, yet index parsing
succeeds, returning an Index with an empty bundle table — it does not
fail with an error as the claim states. -/
theorem c8_counterexample :
    indexTryFrom (c8payload 5) = some (c8index 5)
    ∧ (c8index 5).bundles = []
    ∧ (c8index 5).files = [⟨0, 5, 0, 0⟩] := by
  refine ⟨by decide, rfl, rfl⟩

/-- C2 amended: when the initial u32 of a path-record slice is non-zero,
the decoder does set `building = false`, but it does not treat the value
as a first frag index: the value is discarded without reading any
fragment string, and the walk's result is the same for every non-zero
initial u32 over the same remaining bytes.  Frag indices are read only
inside the loop, which starts at offset 4. -/
theorem c2_amended (murmur : List Nat → Nat) (files : List FileRecord)
    (a0 a1 a2 a3 b0 b1 b2 b3 : Nat) (rest : List Nat)
    (ha : leNat [a0, a1, a2, a3] ≠ 0) (hb : leNat [b0, b1, b2, b3] ≠ 0) :
    walkRecord murmur files (a0 :: a1 :: a2 :: a3 :: rest)
      = walkRecord murmur files (b0 :: b1 :: b2 :: b3 :: rest) := by
  have r1 : read_u32 (a0 :: a1 :: a2 :: a3 :: rest) 0 = some (leNat [a0, a1, a2, a3], 4) := by
    unfold read_u32
    rw [if_pos (by simp [List.length_cons])]
    rfl
  have r2 : read_u32 (b0 :: b1 :: b2 :: b3 :: rest) 0 = some (leNat [b0, b1, b2, b3], 4) := by
    unfold read_u32
    rw [if_pos (by simp [List.length_cons])]
    rfl
  have hba : (leNat [a0, a1, a2, a3] == 0) = false := beq_eq_false_iff_ne.mpr ha
  have hbb : (leNat [b0, b1, b2, b3] == 0) = false := beq_eq_false_iff_ne.mpr hb
  have hlen : (a0 :: a1 :: a2 :: a3 :: rest).length = (b0 :: b1 :: b2 :: b3 :: rest).length := by
    simp
  unfold walkRecord
  simp only [r1, r2, hba, hbb]
  rw [← hlen]
  exact walkLoop_agree murmur files _ hlen rfl _ 4 false [] [] (by omega)

/-- Witness for C2's amended claim at two concrete non-zero initial
words over the same remaining bytes. -/
theorem c2_witness :
    leNat [1, 0, 0, 0] ≠ 0 ∧ leNat [2, 0, 0, 0] ≠ 0
    ∧ walkRecord (fun _ => 5) [⟨5, 2, 0, 0⟩] [1, 0, 0, 0, 97, 0]
      = walkRecord (fun _ => 5) [⟨5, 2, 0, 0⟩] [2, 0, 0, 0, 97, 0] :=
  ⟨by decide, by decide,
    c2_amended (fun _ => 5) [⟨5, 2, 0, 0⟩] 1 0 0 0 2 0 0 0 [97, 0] (by decide) (by decide)⟩

/-- C5: every insertion performed by the path-dictionary walk pairs a
path with the file record found under the path's hash in the hash-keyed
file map — so the record's hash equals the hash of the path's UTF-8
bytes (the hash function, murmurhash64a at seed 0x1337b33f in the code,
is abstracted as `murmur`) — and the insertion key is that record's
`bundle_idx`.  A reconstructed path whose hash matches no record never
aborts the walk: whether a record walk succeeds is independent of the
file table, a miss only skips the insertion (and logs). -/
theorem c5_hash_match (murmur : List Nat → Nat) (files : List FileRecord)
    (slice : List Nat) :
    (∀ l, walkRecord murmur files slice = .ok l →
      ∀ e, e ∈ l → e.2.2.hash = murmur e.2.1 ∧ e.1 = e.2.2.bundle_idx)
    ∧ (∀ files', exceptOk (walkRecord murmur files slice)
        = exceptOk (walkRecord murmur files' slice)) := by
  constructor
  · intro l h e he
    unfold walkRecord at h
    split at h
    · cases h
    · rcases walkLoop_mem murmur files slice _ _ _ _ _ _ _ h e he with hacc | hgood
      · cases hacc
      · exact hgood
  · intro files'
    unfold walkRecord
    split
    · rfl
    · exact walkLoop_indep murmur slice _ files files' _ _ _ _ _ _

/-- Witness for C5 at a concrete slice that emits one insertion. -/
theorem c5_witness :
    walkRecord (fun _ => 5) [⟨5, 2, 0, 0⟩] [1, 0, 0, 0, 1, 0, 0, 0, 97, 0, 0, 0, 0, 0]
      = .ok [(2, [97], ⟨5, 2, 0, 0⟩)]
    ∧ ((⟨5, 2, 0, 0⟩ : FileRecord).hash = (fun (_ : List Nat) => 5) [97]
        ∧ 2 = (⟨5, 2, 0, 0⟩ : FileRecord).bundle_idx) :=
  ⟨rfl,
    (c5_hash_match (fun _ => 5) [⟨5, 2, 0, 0⟩]
        [1, 0, 0, 0, 1, 0, 0, 0, 97, 0, 0, 0, 0, 0]).1
      [(2, [97], ⟨5, 2, 0, 0⟩)] rfl (2, [97], ⟨5, 2, 0, 0⟩) (List.mem_singleton.mpr rfl)⟩

theorem walkLoop_no_oob (murmur : List Nat → Nat) (files : List FileRecord)
    (slice : List Nat) (h4 : 4 ≤ slice.length) :
    ∀ fuel off b frags acc, off ≤ slice.length → slice.length - off < fuel →
      walkLoop murmur files slice (slice.length - 4) fuel off b frags acc ≠ .error .oob
      ∧ walkLoop murmur files slice (slice.length - 4) fuel off b frags acc ≠ .error .fuel := by
  intro fuel
  induction fuel with
  | zero => intro off b frags acc hoff hfuel; omega
  | succ n ih =>
    intro off b frags acc hoff hfuel
    simp only [walkLoop]
    by_cases hb : off < slice.length - 4
    · rw [if_pos hb]
      have hread : read_u32 slice off = some (leNat ((slice.drop off).take 4), off + 4) := by
        unfold read_u32
        rw [if_pos (by omega)]
      simp only [hread]
      by_cases hv : leNat ((slice.drop off).take 4) = 0
      · rw [if_pos hv]
        exact ih (off + 4) _ _ _ (by omega) (by omega)
      · rw [if_neg hv]
        cases hp : procIndex murmur files slice (off + 4) (leNat ((slice.drop off).take 4)) b frags with
        | error e =>
          simp only [hp]
          rcases procIndex_error_cases (by omega) hp with rfl | rfl
          · exact ⟨by simp, by simp⟩
          · exact ⟨by simp, by simp⟩
        | ok r =>
          obtain ⟨o, g, d⟩ := r
          simp only [hp]
          have hbd := procIndex_ok_bounds hp
          exact ih o _ _ _ (by omega) (by omega)
    · rw [if_neg hb]
      exact ⟨by simp, by simp⟩

theorem recordBound_small {n : Nat} (h : n < 4) : 2 ^ 64 - 4 ≤ recordBound n := by
  unfold recordBound
  omega

theorem recordBound_large {n : Nat} (h4 : 4 ≤ n) (h32 : n < 2 ^ 32) :
    recordBound n = n - 4 := by
  unfold recordBound
  omega

/-- C10: the path-record walk stays within its slice only when the record
declares `size ≥ 4`.  With `size < 4` the wrapping usize subtraction
makes the loop bound enormous (at least 2^64 - 4) and the walk reads past
the end of the record's slice (the out-of-range panic `oob`), instead of
stopping at the slice end.  With `size ≥ 4` every read stays in bounds
(`oob` is impossible) and the walk terminates — each iteration advances
the offset by at least 4, so the fuel `slice.length + 1` the embedding
passes is never exhausted (`fuel` is impossible). -/
theorem c10_walk_totality (murmur : List Nat → Nat) (files : List FileRecord)
    (bytes : List Nat) (pr : PathRecord) :
    (pr.size < 4 → pr.offset + pr.size ≤ bytes.length →
      buildPathsRecord murmur files bytes pr = .error .oob
      ∧ 2 ^ 64 - 4 ≤ recordBound pr.size)
    ∧ (4 ≤ pr.size → pr.size < 2 ^ 32 → pr.offset + pr.size ≤ bytes.length →
      buildPathsRecord murmur files bytes pr ≠ .error .oob
      ∧ buildPathsRecord murmur files bytes pr ≠ .error .fuel) := by
  have hslice : pr.offset + pr.size ≤ bytes.length →
      ((bytes.drop pr.offset).take pr.size).length = pr.size := by
    intro h
    simp only [List.length_take, List.length_drop]
    omega
  constructor
  · intro hs hin
    refine ⟨?_, recordBound_small hs⟩
    unfold buildPathsRecord
    rw [if_pos hin]
    unfold walkRecord
    have hnone : read_u32 ((bytes.drop pr.offset).take pr.size) 0 = none := by
      unfold read_u32
      rw [if_neg (by rw [hslice hin]; omega)]
    simp only [hnone]
  · intro h4 h32 hin
    unfold buildPathsRecord
    rw [if_pos hin]
    unfold walkRecord
    have hlen : ((bytes.drop pr.offset).take pr.size).length = pr.size := hslice hin
    have hread : read_u32 ((bytes.drop pr.offset).take pr.size) 0
        = some (leNat ((((bytes.drop pr.offset).take pr.size).drop 0).take 4), 0 + 4) := by
      unfold read_u32
      rw [if_pos (by omega)]
    simp only [hread]
    have hbnd : recordBound ((bytes.drop pr.offset).take pr.size).length
        = ((bytes.drop pr.offset).take pr.size).length - 4 := by
      rw [hlen]
      exact recordBound_large h4 h32
    rw [hbnd]
    exact walkLoop_no_oob murmur files _ (by omega) _ 4 _ [] [] (by omega) (by omega)

/-- Witness for C10 at a 3-byte record (out-of-range read) and a 5-byte
record (no out-of-range read, no fuel exhaustion). -/
theorem c10_witness :
    ((3 : Nat) < 4 ∧ (0 : Nat) + 3 ≤ ([9, 9, 9] : List Nat).length
      ∧ buildPathsRecord (fun _ => 0) [] [9, 9, 9] ⟨0, 0, 3, 0⟩ = .error .oob)
    ∧ (4 ≤ (5 : Nat) ∧ (5 : Nat) < 2 ^ 32 ∧ (0 : Nat) + 5 ≤ ([0, 0, 0, 0, 0] : List Nat).length
      ∧ buildPathsRecord (fun _ => 0) [] [0, 0, 0, 0, 0] ⟨0, 0, 5, 0⟩ ≠ .error .oob) :=
  ⟨⟨by decide, by decide,
      ((c10_walk_totality (fun _ => 0) [] [9, 9, 9] ⟨0, 0, 3, 0⟩).1 (by decide) (by decide)).1⟩,
    ⟨by decide, by decide, by decide,
      ((c10_walk_totality (fun _ => 0) [] [0, 0, 0, 0, 0] ⟨0, 0, 5, 0⟩).2 (by decide) (by decide)
          (by decide)).1⟩⟩

/-- C3: for every valid parsed bundle, decompression returns a byte
vector of exactly `totalRawLen` bytes; splitting that output back into
`seekChunkLen`-byte slices yields exactly `numSeekChunks` slices (the
last being the remainder), and the slice list is precisely the chunkwise
writes of the (abstracted) Oodle decompressor into the zero-initialised
buffer slices — each chunk writes only its own slice. -/
theorem c3_decompress_layout (oodle : List Nat → Nat → List Nat) (b : Bundle)
    (h : b.Valid) :
    ∃ out, b.decompress oodle = some out
      ∧ out.length = b.totalRawLen
      ∧ (chunksList (i32AsUsize b.seekChunkLen) out).length = b.numSeekChunks
      ∧ chunksList (i32AsUsize b.seekChunkLen) out
          = zipWrite oodle b.chunks
              (chunksList (i32AsUsize b.seekChunkLen) (List.replicate b.totalRawLen 0)) := by
  obtain ⟨hsum, hcomp, hraw, hnumc, hnuml, hceil, hcrcs, hpos, hlt, hnumlt⟩ := h
  have hblock : i32AsUsize b.seekChunkLen = b.seekChunkLen := by
    unfold i32AsUsize
    rw [if_pos hlt]
  have hbpos : 1 ≤ i32AsUsize b.seekChunkLen := by
    rw [hblock]
    exact hpos
  have hnz : ¬ i32AsUsize b.seekChunkLen = 0 := by omega
  unfold Bundle.decompress
  rw [if_neg hnz]
  refine ⟨_, rfl, ?_, ?_, ?_⟩
  · rw [flat_length, zipWrite_mapLen, ← flat_length, flat_chunksList _ hbpos]
    exact List.length_replicate _ _
  · have hshape : ChunkShape (i32AsUsize b.seekChunkLen)
        (zipWrite oodle b.chunks
          (chunksList (i32AsUsize b.seekChunkLen) (List.replicate b.totalRawLen 0))) :=
      chunkShape_of_mapLen (zipWrite_mapLen oodle _ _).symm
        (chunksList_shape _ hbpos _)
    rw [rechunk _ hbpos _ hshape]
    have hlen1 : (zipWrite oodle b.chunks
        (chunksList (i32AsUsize b.seekChunkLen) (List.replicate b.totalRawLen 0))).length
        = (chunksList (i32AsUsize b.seekChunkLen) (List.replicate b.totalRawLen 0)).length := by
      have := zipWrite_mapLen oodle b.chunks
        (chunksList (i32AsUsize b.seekChunkLen) (List.replicate b.totalRawLen 0))
      have h2 := congrArg List.length this
      simpa [List.length_map] using h2
    rw [hlen1, chunksList_length _ hbpos, List.length_replicate, hblock, hraw]
    exact hceil
  · have hshape : ChunkShape (i32AsUsize b.seekChunkLen)
        (zipWrite oodle b.chunks
          (chunksList (i32AsUsize b.seekChunkLen) (List.replicate b.totalRawLen 0))) :=
      chunkShape_of_mapLen (zipWrite_mapLen oodle _ _).symm
        (chunksList_shape _ hbpos _)
    exact rechunk _ hbpos _ hshape

/-- Witness for C3 at a concrete two-chunk valid bundle (5 raw bytes,
chunk length 4, so the second slice is the 1-byte remainder) and a
concrete decompressor. -/
theorem c3_witness :
    (⟨5, 2, 0, 0, 0, 5, 2, 2, 4, 0, 0, [1, 1], none, [[1], [2]]⟩ : Bundle).Valid
    ∧ ∃ out,
        Bundle.decompress (fun _ n => List.replicate n 3)
            ⟨5, 2, 0, 0, 0, 5, 2, 2, 4, 0, 0, [1, 1], none, [[1], [2]]⟩ = some out
        ∧ out.length
            = (⟨5, 2, 0, 0, 0, 5, 2, 2, 4, 0, 0, [1, 1], none, [[1], [2]]⟩ : Bundle).totalRawLen
        ∧ (chunksList
            (i32AsUsize (⟨5, 2, 0, 0, 0, 5, 2, 2, 4, 0, 0, [1, 1], none, [[1], [2]]⟩ : Bundle).seekChunkLen)
            out).length
            = (⟨5, 2, 0, 0, 0, 5, 2, 2, 4, 0, 0, [1, 1], none, [[1], [2]]⟩ : Bundle).numSeekChunks
        ∧ chunksList
            (i32AsUsize (⟨5, 2, 0, 0, 0, 5, 2, 2, 4, 0, 0, [1, 1], none, [[1], [2]]⟩ : Bundle).seekChunkLen)
            out
            = zipWrite (fun _ n => List.replicate n 3)
                (⟨5, 2, 0, 0, 0, 5, 2, 2, 4, 0, 0, [1, 1], none, [[1], [2]]⟩ : Bundle).chunks
                (chunksList
                  (i32AsUsize (⟨5, 2, 0, 0, 0, 5, 2, 2, 4, 0, 0, [1, 1], none, [[1], [2]]⟩ : Bundle).seekChunkLen)
                  (List.replicate
                    (⟨5, 2, 0, 0, 0, 5, 2, 2, 4, 0, 0, [1, 1], none, [[1], [2]]⟩ : Bundle).totalRawLen 0)) :=
  ⟨by decide,
    c3_decompress_layout (fun _ n => List.replicate n 3)
      ⟨5, 2, 0, 0, 0, 5, 2, 2, 4, 0, 0, [1, 1], none, [[1], [2]]⟩ (by decide)⟩

/-- C4: for every file reached by the extraction pipeline whose record
slice lies within the decompressed payload, the written bytes are exactly
`data[offset .. offset+size]` and the written count equals `size`, so the
`assert_eq!` after the write passes (src/bundle/src/index.rs:104-119). -/
theorem c4_file_write_exact (data : List Nat) (f : FileRecord)
    (h : f.offset + f.size ≤ data.length) :
    fileWrite data f = some ((data.drop f.offset).take f.size, f.size) := by
  have hlen : ((data.drop f.offset).take f.size).length = f.size := by
    simp only [List.length_take, List.length_drop]
    omega
  unfold fileWrite
  rw [if_pos h]
  simp [hlen]

/-- Witness for C4 at a concrete payload and record. -/
theorem c4_witness :
    (⟨0, 0, 1, 2⟩ : FileRecord).offset + (⟨0, 0, 1, 2⟩ : FileRecord).size
        ≤ ([5, 6, 7, 8] : List Nat).length
    ∧ fileWrite [5, 6, 7, 8] ⟨0, 0, 1, 2⟩ = some ([6, 7], 2) :=
  ⟨by decide, c4_file_write_exact [5, 6, 7, 8] ⟨0, 0, 1, 2⟩ (by decide)⟩

theorem sumOpt_append (xs ys : List (Option Nat)) :
    sumOpt (xs ++ ys) = (sumOpt xs).bind (fun a => (sumOpt ys).map (fun b => a + b)) := by
  induction xs with
  | nil =>
    simp only [List.nil_append, sumOpt]
    cases sumOpt ys with
    | none => rfl
    | some m => simp
  | cons x xs ih =>
    have step : sumOpt (x :: (xs ++ ys))
        = x.bind (fun a => (sumOpt (xs ++ ys)).map (fun b => a + b)) := rfl
    have step2 : sumOpt (x :: xs)
        = x.bind (fun a => (sumOpt xs).map (fun b => a + b)) := rfl
    rw [List.cons_append, step, ih, step2]
    cases x with
    | none => rfl
    | some a =>
      cases sumOpt xs with
      | none => rfl
      | some c =>
        cases sumOpt ys with
        | none => rfl
        | some d => simp [Nat.add_assoc]

/-- C9: a bundle record whose `<path>.bundle.bin` file is absent under
the input's Bundles2 directory is skipped with only a warning: its
per-bundle result is exactly 0 bytes, and the extraction total over any
record list containing it equals the total over the same list without it
— every other bundle is still processed and the return value stays the
sum of the per-bundle byte counts. -/
theorem c9_missing_bundle_skipped (oodle : List Nat → Nat → List Nat)
    (fs : List Nat → Option (List Nat)) (shaders : Bool)
    (r : BundleRecord × List (List Nat × FileRecord))
    (l1 l2 : List (BundleRecord × List (List Nat × FileRecord)))
    (h : fs (r.1.path ++ dotBundleBin) = none) :
    perBundle oodle fs shaders r = some 0
    ∧ extract oodle fs shaders (l1 ++ r :: l2) = extract oodle fs shaders (l1 ++ l2) := by
  have hper : perBundle oodle fs shaders r = some 0 := by
    unfold perBundle
    rw [h]
  refine ⟨hper, ?_⟩
  unfold extract
  rw [List.filter_append, List.filter_append, List.filter_cons]
  by_cases hc : (shaders || !containsSub shadercacheBytes r.1.path) = true
  · rw [if_pos hc]
    simp only [List.map_append, List.map_cons]
    rw [sumOpt_append, sumOpt_append]
    have hzero : sumOpt (perBundle oodle fs shaders r
        :: (List.filter (fun x => shaders || !containsSub shadercacheBytes x.1.path) l2).map
            (perBundle oodle fs shaders))
        = sumOpt ((List.filter (fun x => shaders || !containsSub shadercacheBytes x.1.path) l2).map
            (perBundle oodle fs shaders)) := by
      simp only [sumOpt, hper]
      cases sumOpt ((List.filter (fun x => shaders || !containsSub shadercacheBytes x.1.path) l2).map
          (perBundle oodle fs shaders)) with
      | none => rfl
      | some m => simp
    rw [hzero]
  · rw [if_neg hc]

/-- Witness for C9 at a one-record list whose bundle file is absent in
an empty filesystem. -/
theorem c9_witness :
    (fun (_ : List Nat) => (none : Option (List Nat)))
        ((⟨[97], 7⟩ : BundleRecord).path ++ dotBundleBin) = none
    ∧ perBundle (fun _ _ => []) (fun _ => none) true (⟨[97], 7⟩, []) = some 0
    ∧ extract (fun _ _ => []) (fun _ => none) true ([] ++ (⟨[97], 7⟩, []) :: [])
        = extract (fun _ _ => []) (fun _ => none) true ([] ++ []) :=
  ⟨rfl,
    (c9_missing_bundle_skipped (fun _ _ => []) (fun _ => none) true (⟨[97], 7⟩, []) [] [] rfl).1,
    (c9_missing_bundle_skipped (fun _ _ => []) (fun _ => none) true (⟨[97], 7⟩, []) [] [] rfl).2⟩

set_option maxHeartbeats 2000000 in
/-- C8 amended: index parsing performs no `bundle_idx` range check at
all — for every 32-bit pattern of the `bundle_idx` field (four arbitrary
byte values), a payload whose single FileRecord carries that pattern and
whose bundle table is empty parses successfully into an Index. -/
theorem c8_amended_no_range_check (b0 b1 b2 b3 : Nat) :
    indexTryFrom ([0, 0, 0, 0, 1, 0, 0, 0, 0, 0, 0, 0, 0, 0, 0, 0, b0, b1, b2, b3]
        ++ List.replicate 72 0)
      = some ⟨[], [⟨0, leNat [b0, b1, b2, b3], 0, 0⟩], [], zeroBundle⟩ := by
  rfl

end Poe2
